import Mathlib

/-!
Verification of the MCC-COMMS voice-loop controller and bot relay.

This file shallowly embeds the two components the claims are about:

* the assignment state machine of `gui.py` (`MainWindow._update_bot_assignment`,
  `on_loop_clicked`, `on_loop_off_clicked`, `_find_idle_bot`), and
* the per-bot delayed-audio relay and playback pipeline of `bot_server.py`
  (`_delay_audio_worker`, `disable_audio_delay`, `_playback_thread`,
  `set_volume`).

Modelling conventions:
* Python dicts keyed by loop / bot names become total functions
  `String → _`; only keys present in the static configuration are ever
  written, and that is proved where needed rather than assumed.
* `time.time()` is modelled as a `Nat` timestamp supplied with each
  operation (the code reads the clock several times inside one handler;
  the claims do not depend on those sub-millisecond differences).
* Python truthiness of a bot name (`if old_bot:`) is modelled as
  `Option.isSome`: bot names come from the static roster
  (`BOT1`/`BOT2`/`BOT3` in `gui.py`) and are non-empty strings.
* HTTP posts to a bot are modelled as an emitted command list; the state
  transition functions return the new state together with the commands
  issued, so "no command is issued" is expressible.
* numpy float32 arithmetic in the playback path is modelled over `ℚ`
  (exact linear arithmetic); the int16 cast `astype(np.int16)` on an
  in-range float truncates toward zero and is modelled accordingly.
-/

namespace MCC

/-- One entry of the `LOOPS` catalog loaded in `gui.py`: a loop name plus
its capability flags `can_listen` and `can_talk`. -/
structure LoopCfg where
  name : String
  can_listen : Bool
  can_talk : Bool
deriving DecidableEq, Repr

/-- One value of `MainWindow.bot_pool`: the bot's API port, the loop it is
assigned to (`None` when idle), and the `last_used` timestamp. -/
structure BotData where
  port : Nat
  assigned : Option String
  last_used : Nat
deriving DecidableEq, Repr

/-- A command issued to a bot's HTTP API by the controller
(`requests.post(f"http://127.0.0.1:{port}/...")` in `gui.py`).
`talkDelayed` is the `threading.Timer(self.delay_seconds, ... /talk)`
scheduled when delay mode is on. -/
inductive Cmd where
  | leave (port : Nat)
  | leaveAfterDelay (port : Nat)
  | mute (port : Nat)
  | muteAfterDelay (port : Nat)
  | join (port : Nat) (loop : String)
  | talk (port : Nat)
  | talkDelayed (seconds : Nat) (port : Nat)
deriving DecidableEq, Repr

/-- The static configuration of a `MainWindow`: the loop catalog `LOOPS`,
the bot roster (names of `BOTS`, in dict order), each bot's port, and the
`delay_seconds` setting. -/
structure Controller where
  cfgs : List LoopCfg
  botNames : List String
  ports : String → Nat
  delay_seconds : Nat

/-- The mutable controller state of `MainWindow`: `delay_enabled`,
`loop_states` (loop name ↦ `(state, assigned bot)`, states are
`0 = OFF`, `1 = LISTEN`, `2 = TALK`), and `bot_pool`. -/
structure CtrlState where
  delay_enabled : Bool
  loop_states : String → Nat × Option String
  bot_pool : String → BotData

/-- Pointwise update of a name-keyed map (a Python dict store). -/
def upd {β : Type} (f : String → β) (k : String) (v : β) : String → β :=
  fun x => if x = k then v else f x

/-- `self.loop_configs[loop_name]`.  The dict comprehension
`{loop["name"]: loop for loop in LOOPS}` keeps the last entry for a
duplicated name, hence the lookup over the reversed list.  A missing key
would raise `KeyError` in Python; the embedding guards the operations on a
successful lookup instead. -/
def loop_config (C : Controller) (name : String) : Option LoopCfg :=
  C.cfgs.reverse.find? (fun c => decide (c.name = name))

/-- `MainWindow._find_idle_bot`, lines 325–330 of `gui.py`:
filter the pool to bots with `assigned is None` (in dict order), sort by
`last_used` (Python's sort is stable) and return the first name.  The head
of a stable sort is the first element attaining the minimal key, computed
here by a left fold that keeps the earlier element on ties. -/
def pick_lru (pool : String → BotData) (x : String) (xs : List String) : String :=
  xs.foldl (fun best n => if (pool n).last_used < (pool best).last_used then n else best) x

def find_idle_bot (C : Controller) (pool : String → BotData) : Option String :=
  match C.botNames.filter (fun n => (pool n).assigned.isNone) with
  | [] => none
  | x :: xs => some (pick_lru pool x xs)

/-- The clamp at the top of `_update_bot_assignment` (lines 338–341):
`if loop_cfg["can_listen"] and not loop_cfg["can_talk"]: if new_state > 1:
new_state = 0`. -/
def clamp_state (cfg : LoopCfg) (ns : Nat) : Nat :=
  if cfg.can_listen = true ∧ cfg.can_talk = false ∧ 1 < ns then 0 else ns

/-- Accumulator for the demotion pass inside `_update_bot_assignment`
(`for other_loop in LOOPS: ...`, lines 362–376): the threaded
`loop_states`, `bot_pool`, and commands issued so far. -/
structure DemAcc where
  ls : String → Nat × Option String
  pool : String → BotData
  cmds : List Cmd

/-- One iteration of the demotion pass: any other loop currently in TALK
with a bot gets its bot muted (delayed variant when delay mode is on), is
set to LISTEN keeping its bot, and the bot's `last_used` is refreshed. -/
def demote_step (de : Bool) (l : String) (now : Nat) (acc : DemAcc) (c : LoopCfg) : DemAcc :=
  if c.name = l then acc
  else
    match acc.ls c.name with
    | (2, some obot) =>
        let oport := (acc.pool obot).port
        { ls := upd acc.ls c.name (1, some obot)
        , pool := upd acc.pool obot { acc.pool obot with last_used := now }
        , cmds := acc.cmds ++ [if de then Cmd.muteAfterDelay oport else Cmd.mute oport] }
    | _ => acc

/-- The tail of `_update_bot_assignment` once a bot `ab` is determined
(lines 360–391): the demotion pass and `join`/`talk` commands for a TALK
request, the `mute`/`join`+`mute` commands for a LISTEN request, then the
unconditional bookkeeping writes
`bot_pool[assigned_bot]["assigned"] = loop_name`,
`bot_pool[assigned_bot]["last_used"] = now`,
`loop_states[loop_name] = (new_state, assigned_bot)`.
`pool1` is the pool after the acquisition write (if any). -/
def finish_assign (C : Controller) (s : CtrlState) (pool1 : String → BotData)
    (ab : String) (loop_name : String) (old_state new_state now : Nat) :
    CtrlState × List Cmd :=
  let port := (pool1 ab).port
  if new_state = 2 then
    let acc := C.cfgs.foldl (demote_step s.delay_enabled loop_name now)
      { ls := s.loop_states, pool := pool1, cmds := [] }
    let cmds := acc.cmds ++ [Cmd.join port loop_name] ++
      (if s.delay_enabled = true then [Cmd.talkDelayed C.delay_seconds port]
       else [Cmd.talk port])
    ({ delay_enabled := s.delay_enabled
     , loop_states := upd acc.ls loop_name (new_state, some ab)
     , bot_pool := upd acc.pool ab
         { acc.pool ab with assigned := some loop_name, last_used := now } }, cmds)
  else
    let cmds :=
      if new_state = 1 then
        if old_state = 2 ∧ s.delay_enabled = true then [Cmd.muteAfterDelay port]
        else [Cmd.join port loop_name, Cmd.mute port]
      else []
    ({ delay_enabled := s.delay_enabled
     , loop_states := upd s.loop_states loop_name (new_state, some ab)
     , bot_pool := upd pool1 ab
         { pool1 ab with assigned := some loop_name, last_used := now } }, cmds)

/-- `MainWindow._update_bot_assignment(loop_name, new_state)`, lines
332–391 of `gui.py`, returning the new controller state together with the
commands posted to bots. -/
def update_bot_assignment (C : Controller) (s : CtrlState) (loop_name : String)
    (new_state0 : Nat) (now : Nat) : CtrlState × List Cmd :=
  match loop_config C loop_name with
  | none => (s, [])
  | some loop_cfg =>
    let old_state := (s.loop_states loop_name).1
    let new_state := clamp_state loop_cfg new_state0
    if new_state = 0 then
      match (s.loop_states loop_name).2 with
      | some b =>
          let port := (s.bot_pool b).port
          let cmds :=
            if s.delay_enabled = true ∧ old_state = 2 then [Cmd.leaveAfterDelay port]
            else [Cmd.leave port, Cmd.mute port]
          ({ delay_enabled := s.delay_enabled
           , bot_pool := upd s.bot_pool b
               { s.bot_pool b with assigned := none, last_used := now }
           , loop_states := upd s.loop_states loop_name (0, none) }, cmds)
      | none =>
          ({ delay_enabled := s.delay_enabled
           , bot_pool := s.bot_pool
           , loop_states := upd s.loop_states loop_name (0, none) }, [])
    else
      match (s.loop_states loop_name).2 with
      | some ab => finish_assign C s s.bot_pool ab loop_name old_state new_state now
      | none =>
        match find_idle_bot C s.bot_pool with
        | none => (s, [])
        | some ab =>
            let pool1 := upd s.bot_pool ab { s.bot_pool ab with assigned := some loop_name }
            finish_assign C s pool1 ab loop_name old_state new_state now

/-- `MainWindow.on_loop_clicked`, lines 393–407 of `gui.py`: ignore loops
that cannot listen, otherwise toggle `0 → 1`, `1 → 2` (only if the loop
can talk, else stay at `1`), `2 → 1` (any other value also maps to `1`)
and delegate to `_update_bot_assignment`. -/
def on_loop_clicked (C : Controller) (s : CtrlState) (loop_name : String) (now : Nat) :
    CtrlState × List Cmd :=
  match loop_config C loop_name with
  | none => (s, [])
  | some cfg =>
    if cfg.can_listen = false then (s, [])
    else
      let old_state := (s.loop_states loop_name).1
      let new_state :=
        if old_state = 0 then 1
        else if old_state = 1 then (if cfg.can_talk = true then 2 else 1)
        else 1
      update_bot_assignment C s loop_name new_state now

/-- `MainWindow.on_loop_off_clicked`, lines 409–411 of `gui.py`. -/
def on_loop_off_clicked (C : Controller) (s : CtrlState) (loop_name : String) (now : Nat) :
    CtrlState × List Cmd :=
  update_bot_assignment C s loop_name 0 now

/-- A controller operation, as listed in the claims: a loop-button click,
an OFF-button click, a direct `_update_bot_assignment` call, and the
delay toggle (`toggle_delay` flips `delay_enabled`; the posts it sends to
the bots do not touch the assignment state). -/
inductive Op where
  | click (loop : String) (now : Nat)
  | offClick (loop : String) (now : Nat)
  | setState (loop : String) (state : Nat) (now : Nat)
  | toggleDelay
deriving DecidableEq, Repr

def applyOp (C : Controller) (s : CtrlState) : Op → CtrlState
  | .click l t => (on_loop_clicked C s l t).1
  | .offClick l t => (on_loop_off_clicked C s l t).1
  | .setState l st t => (update_bot_assignment C s l st t).1
  | .toggleDelay => { s with delay_enabled := !s.delay_enabled }

/-- The initial state built in `MainWindow.__init__`: every loop
`(0, None)`, every bot `{"assigned": None, "last_used": 0}`, delay off. -/
def initState (C : Controller) : CtrlState :=
  { delay_enabled := false
  , loop_states := fun _ => (0, none)
  , bot_pool := fun n => { port := C.ports n, assigned := none, last_used := 0 } }

/-- The state reached from the initial state by a sequence of controller
operations. -/
def reach (C : Controller) (ops : List Op) : CtrlState :=
  ops.foldl (applyOp C) (initState C)

/-- The loop names appearing in the catalog. -/
def cfgNames (C : Controller) : List String := C.cfgs.map (fun c => c.name)

/-- Time-indexed view of the mutable `LoopBot` fields read by the delay
worker in `bot_server.py` (`self.audio_delay_enabled`,
`self.audio_delay_seconds`, `self.streaming`, and the truthiness of
`self.client` / `self.client.sound_output`): each is a function of the
absolute time (in seconds, `time.time()`) at which the worker reads it.
The HTTP command handlers (`talk`, `mute`, `enable_audio_delay`,
`disable_audio_delay`, ...) run concurrently with the worker and are
represented by the evolution of these functions over time. -/
structure BotEnv where
  delay_enabled : Nat → Bool
  delay_seconds : Nat → Nat
  streaming : Nat → Bool
  client_ready : Nat → Bool

/-- One iteration of `LoopBot._delay_audio_worker` (lines 138–157 of
`bot_server.py`) for a frame `(tstamp, pcm)` dequeued at time `tNow`:
if `audio_delay_enabled` is false at dequeue time the frame is discarded
(`continue`); otherwise the worker computes
`wait_needed = (tstamp + audio_delay_seconds) - time.time()` and sleeps
for it when positive, waking at `max tNow (tstamp + delay_seconds)`;
after the wait the frame is played only when
`self.streaming and self.client and getattr(self.client, "sound_output",
None)` holds at that moment.  `some pcm` means the frame is handed to
`sound_output.add_sound`; `none` means it is dropped. -/
def delay_worker_step (env : BotEnv) (tNow tstamp : Nat) (pcm : List Int) : Option (List Int) :=
  if env.delay_enabled tNow = false then none
  else
    let wake := max tNow (tstamp + env.delay_seconds tNow)
    if env.streaming wake = true ∧ env.client_ready wake = true then some pcm else none

/-- The delay-related fields of one `LoopBot` as a sequential state:
`audio_delay_enabled`, `audio_delay_seconds`, and the contents of
`audio_delay_queue` (a FIFO of `(timestamp, pcm)` frames). -/
structure DelayState where
  audio_delay_enabled : Bool
  audio_delay_seconds : Nat
  audio_delay_queue : List (Nat × List Int)
deriving DecidableEq, Repr

/-- `LoopBot.enable_audio_delay` (lines 121–124 of `bot_server.py`). -/
def enable_audio_delay (s : DelayState) (seconds : Nat) : DelayState :=
  { s with audio_delay_enabled := true, audio_delay_seconds := seconds }

/-- The drain loop inside `disable_audio_delay`:
`while not self.audio_delay_queue.empty(): ... get_nowait()` removes the
head frame repeatedly until the queue is empty. -/
def drain_queue {α : Type} : List α → List α
  | [] => []
  | _ :: rest => drain_queue rest

/-- `LoopBot.disable_audio_delay` (lines 126–136 of `bot_server.py`):
clear the flag, then immediately flush the queue. -/
def disable_audio_delay (s : DelayState) : DelayState :=
  { s with audio_delay_enabled := false
         , audio_delay_queue := drain_queue s.audio_delay_queue }

/-- The queue effect of `LoopBot._mic_callback` (lines 159–173 of
`bot_server.py`): while delay mode is on, each captured frame is
timestamped with `time.time()` and enqueued without blocking. -/
def mic_callback_enqueue (s : DelayState) (t : Nat) (pcm : List Int) : DelayState :=
  if s.audio_delay_enabled = true then
    { s with audio_delay_queue := s.audio_delay_queue ++ [(t, pcm)] }
  else s

def int16Min : Int := -32768

def int16Max : Int := 32767

/-- `astype(np.int16)` applied to a float that has already been clipped
into the int16 range: numpy's float-to-integer conversion truncates
toward zero. -/
def truncQ (x : ℚ) : Int := if 0 ≤ x then ⌊x⌋ else ⌈x⌉

/-- Per-sample effect of the playback loop in `LoopBot._playback_thread`
(lines 214–232 of `bot_server.py`):
`arr = np.frombuffer(pcm, dtype=np.int16).astype(np.float32);
arr *= self.playback_volume;
arr = np.clip(arr, -32768, 32767).astype(np.int16)`.
Int16 samples and their scaled values are modelled exactly over `ℚ`. -/
def playback_sample (vol : ℚ) (s : Int) : Int :=
  truncQ (max (-32768) (min 32767 ((s : ℚ) * vol)))

/-- The playback transformation of a whole received PCM frame. -/
def playback_frame (vol : ℚ) (pcm : List Int) : List Int :=
  pcm.map (playback_sample vol)

/-- The volume law in the words of the specification: the output sample is
`clamp(input_sample * volume, INT16_MIN, INT16_MAX)` converted back to a
16-bit signed integer. -/
def volume_law_spec (vol : ℚ) (s : Int) : Int :=
  truncQ (max ((int16Min : Int) : ℚ) (min ((int16Max : Int) : ℚ) ((s : ℚ) * vol)))

/-- `LoopBot.set_volume` (lines 278–282 of `bot_server.py`):
`self.playback_volume = max(0.0, min(1.0, float(vol)))`.  The `/set_volume`
route (lines 403–410) passes `float(request.json.get('volume', 1.0))`
straight to it. -/
def set_volume (vol : ℚ) : ℚ := max 0 (min 1 vol)

/-- `self.playback_volume = 1.0` in `LoopBot.__init__` (line 108). -/
def initial_volume : ℚ := 1

/-- The playback volume after a sequence of `set_volume` requests; the
route handler and `__init__` are the only writers of `playback_volume`. -/
def volume_after_sets (vols : List ℚ) : ℚ :=
  vols.foldl (fun _ v => set_volume v) initial_volume

/-- A concrete controller instance for evaluating the theorems: loops `A`
and `B` talk-capable, loop `C` listen-only, and the three-bot roster of
`gui.py` with its ports. -/
def demoC : Controller :=
  { cfgs := [⟨"A", true, true⟩, ⟨"B", true, true⟩, ⟨"C", true, false⟩]
  , botNames := ["BOT1", "BOT2", "BOT3"]
  , ports := fun n => if n = "BOT1" then 6001 else if n = "BOT2" then 6002 else 6003
  , delay_seconds := 3 }

/-- A controller whose single loop can neither listen nor talk. -/
def noCapC : Controller :=
  { cfgs := [⟨"X", false, false⟩]
  , botNames := ["BOT1", "BOT2", "BOT3"]
  , ports := fun _ => 6001
  , delay_seconds := 3 }

/-- A controller state with all loops off and two idle bots whose
`last_used` differ (`BOT2` was released earlier than `BOT1`/`BOT3`). -/
def lruS : CtrlState :=
  { delay_enabled := false
  , loop_states := fun _ => (0, none)
  , bot_pool := fun n =>
      if n = "BOT2" then { port := 6002, assigned := none, last_used := 3 }
      else { port := 6001, assigned := none, last_used := 5 } }

/-- A controller state in which every bot is busy. -/
def busyS : CtrlState :=
  { delay_enabled := false
  , loop_states := fun n => if n = "Z" then (1, some "BOT1") else (0, none)
  , bot_pool := fun _ => { port := 6001, assigned := some "Z", last_used := 0 } }

/-- A bot environment realizing Scenario 3 of the spec: delay mode on with
3 seconds of delay, streaming until a `mute()` lands at `t = 1`. -/
def muteEnv : BotEnv :=
  { delay_enabled := fun _ => true
  , delay_seconds := fun _ => 3
  , streaming := fun t => decide (t < 1)
  , client_ready := fun _ => true }

/-- A bot environment in which delay mode is off. -/
def offEnv : BotEnv :=
  { delay_enabled := fun _ => false
  , delay_seconds := fun _ => 3
  , streaming := fun _ => true
  , client_ready := fun _ => true }

/-- A delay state with two frames still queued. -/
def delayedS : DelayState :=
  { audio_delay_enabled := true
  , audio_delay_seconds := 3
  , audio_delay_queue := [(0, [1, 2]), (1, [3])] }

/-- The inductive invariant of the controller state machine, combining
what claims C1 and C2 need: an OFF loop records no bot; a non-OFF loop
records a bot whose pool entry points back at it; an assigned bot's pool
entry points at a non-OFF loop recording that bot; loops outside the
catalog stay `(0, none)`; and at most one loop is in TALK. -/
structure Inv (C : Controller) (s : CtrlState) : Prop where
  off_none : ∀ n, (s.loop_states n).1 = 0 → (s.loop_states n).2 = none
  on_bot : ∀ n, (s.loop_states n).1 ≠ 0 →
    ∃ b, (s.loop_states n).2 = some b ∧ (s.bot_pool b).assigned = some n
  bot_loop : ∀ b n, (s.bot_pool b).assigned = some n →
    (s.loop_states n).1 ≠ 0 ∧ (s.loop_states n).2 = some b
  outside_off : ∀ n, n ∉ cfgNames C → s.loop_states n = (0, none)
  talk_unique : ∀ n1 n2, (s.loop_states n1).1 = 2 → (s.loop_states n2).1 = 2 → n1 = n2

@[simp] theorem upd_self {β : Type} (f : String → β) (k : String) (v : β) :
    upd f k v k = v := by
  simp [upd]

theorem upd_ne {β : Type} (f : String → β) (k : String) (v : β) {x : String}
    (h : x ≠ k) : upd f k v x = f x := by
  simp [upd, h]

theorem loop_config_props {C : Controller} {l : String} {cfg : LoopCfg}
    (h : loop_config C l = some cfg) :
    l ∈ cfgNames C ∧ cfg.name = l ∧ cfg ∈ C.cfgs := by
  unfold loop_config at h
  have h1 := List.find?_some h
  have h2 : cfg ∈ C.cfgs := List.mem_reverse.mp (List.mem_of_find?_eq_some h)
  have hname : cfg.name = l := of_decide_eq_true h1
  exact ⟨hname ▸ List.mem_map.mpr ⟨cfg, h2, rfl⟩, hname, h2⟩

theorem pick_lru_mem (pool : String → BotData) (x : String) (xs : List String) :
    pick_lru pool x xs ∈ x :: xs := by
  induction xs generalizing x with
  | nil => simp [pick_lru]
  | cons n xs ih =>
    have h := ih (if (pool n).last_used < (pool x).last_used then n else x)
    simp only [pick_lru, List.foldl_cons] at h ⊢
    rcases List.mem_cons.mp h with h | h
    · rw [h]
      split
      · exact List.mem_cons_of_mem _ (List.mem_cons_self _ _)
      · exact List.mem_cons_self _ _
    · exact List.mem_cons_of_mem _ (List.mem_cons_of_mem _ h)

theorem pick_lru_min (pool : String → BotData) (xs : List String) :
    ∀ x, ∀ y ∈ x :: xs, (pool (pick_lru pool x xs)).last_used ≤ (pool y).last_used := by
  induction xs with
  | nil =>
    intro x y hy
    rcases List.mem_cons.mp hy with rfl | h
    · simp [pick_lru]
    · simp at h
  | cons n xs ih =>
    intro x y hy
    simp only [pick_lru, List.foldl_cons]
    have hres := ih (if (pool n).last_used < (pool x).last_used then n else x)
    simp only [pick_lru] at hres
    have h1 : (pool (if (pool n).last_used < (pool x).last_used then n else x)).last_used ≤
        (pool x).last_used := by split <;> omega
    have h2 : (pool (if (pool n).last_used < (pool x).last_used then n else x)).last_used ≤
        (pool n).last_used := by split <;> omega
    rcases List.mem_cons.mp hy with rfl | hy
    · exact le_trans (hres _ (List.mem_cons_self _ _)) h1
    rcases List.mem_cons.mp hy with rfl | hy
    · exact le_trans (hres _ (List.mem_cons_self _ _)) h2
    · exact hres y (List.mem_cons_of_mem _ hy)

theorem find_idle_bot_idle {C : Controller} {pool : String → BotData} {b : String}
    (h : find_idle_bot C pool = some b) :
    b ∈ C.botNames ∧ (pool b).assigned = none := by
  unfold find_idle_bot at h
  cases hf : C.botNames.filter (fun n => (pool n).assigned.isNone) with
  | nil => rw [hf] at h; exact absurd h (by simp)
  | cons x xs =>
    rw [hf] at h
    have hb : b = pick_lru pool x xs := by
      have := h
      simp at this
      exact this.symm
    have hm : b ∈ x :: xs := hb ▸ pick_lru_mem pool x xs
    rw [← hf] at hm
    have := List.mem_filter.mp hm
    exact ⟨this.1, Option.isNone_iff_eq_none.mp this.2⟩

theorem find_idle_bot_min {C : Controller} {pool : String → BotData} {b : String}
    (h : find_idle_bot C pool = some b)
    (b2 : String) (hb2 : b2 ∈ C.botNames) (hidle : (pool b2).assigned = none) :
    (pool b).last_used ≤ (pool b2).last_used := by
  unfold find_idle_bot at h
  cases hf : C.botNames.filter (fun n => (pool n).assigned.isNone) with
  | nil => rw [hf] at h; exact absurd h (by simp)
  | cons x xs =>
    rw [hf] at h
    have hb : b = pick_lru pool x xs := by
      have := h
      simp at this
      exact this.symm
    have hm2 : b2 ∈ x :: xs := by
      rw [← hf]
      exact List.mem_filter.mpr ⟨hb2, by simp [hidle]⟩
    exact hb ▸ pick_lru_min pool xs x b2 hm2

theorem find_idle_bot_busy {C : Controller} {pool : String → BotData}
    (h : ∀ b ∈ C.botNames, (pool b).assigned ≠ none) :
    find_idle_bot C pool = none := by
  unfold find_idle_bot
  have hnil : C.botNames.filter (fun n => (pool n).assigned.isNone) = [] := by
    rw [List.filter_eq_nil_iff]
    intro a ha
    simp only [Option.isNone_iff_eq_none]
    exact fun hc => h a ha (by simpa using hc)
  rw [hnil]

theorem demote_step_pool_assigned (de : Bool) (l : String) (now : Nat)
    (acc : DemAcc) (c : LoopCfg) (b : String) :
    ((demote_step de l now acc c).pool b).assigned = (acc.pool b).assigned := by
  unfold demote_step
  split
  · rfl
  · split
    next obot heq =>
      by_cases hb : b = obot
      · subst hb; simp [upd_self]
      · simp [upd_ne _ _ _ hb]
    next => rfl

theorem demote_fold_pool_assigned (de : Bool) (l : String) (now : Nat)
    (L : List LoopCfg) (acc : DemAcc) (b : String) :
    (((L.foldl (demote_step de l now) acc)).pool b).assigned = (acc.pool b).assigned := by
  induction L generalizing acc with
  | nil => rfl
  | cons c L ih => rw [List.foldl_cons, ih, demote_step_pool_assigned]

theorem demote_step_ls_shape (de : Bool) (l : String) (now : Nat)
    (acc : DemAcc) (c : LoopCfg) (n : String) :
    (demote_step de l now acc c).ls n = acc.ls n ∨
    ∃ ob, acc.ls n = (2, some ob) ∧ (demote_step de l now acc c).ls n = (1, some ob) := by
  unfold demote_step
  split
  · left; rfl
  · split
    next obot heq =>
      by_cases hn : n = c.name
      · subst hn; right; exact ⟨obot, heq, by simp [upd_self]⟩
      · left; simp [upd_ne _ _ _ hn]
    next => left; rfl

theorem demote_fold_ls_shape (de : Bool) (l : String) (now : Nat)
    (L : List LoopCfg) (acc : DemAcc) (n : String) :
    ((L.foldl (demote_step de l now) acc)).ls n = acc.ls n ∨
    ∃ ob, acc.ls n = (2, some ob) ∧
      ((L.foldl (demote_step de l now) acc)).ls n = (1, some ob) := by
  induction L generalizing acc with
  | nil => left; rfl
  | cons c L ih =>
    rw [List.foldl_cons]
    rcases demote_step_ls_shape de l now acc c n with h1 | ⟨ob, h1, h2⟩
    · rcases ih (demote_step de l now acc c) with h | ⟨ob, ha, hb⟩
      · left; rw [h, h1]
      · right; exact ⟨ob, h1 ▸ ha, hb⟩
    · rcases ih (demote_step de l now acc c) with h | ⟨ob2, ha, hb⟩
      · right; exact ⟨ob, h1, by rw [h, h2]⟩
      · rw [h2] at ha
        exact absurd ha (by simp)

theorem demote_fold_ls_ne2 (de : Bool) (l : String) (now : Nat)
    (L : List LoopCfg) (acc : DemAcc) (n : String)
    (h : (acc.ls n).1 ≠ 2) :
    (((L.foldl (demote_step de l now) acc)).ls n).1 ≠ 2 := by
  rcases demote_fold_ls_shape de l now L acc n with h1 | ⟨ob, h1, h2⟩
  · rw [h1]; exact h
  · rw [h2]; simp

theorem demote_step_clears (de : Bool) (l : String) (now : Nat)
    (acc : DemAcc) (c : LoopCfg) (hne : c.name ≠ l)
    (H2 : (acc.ls c.name).1 = 2 → ∃ ob, acc.ls c.name = (2, some ob)) :
    ((demote_step de l now acc c).ls c.name).1 ≠ 2 := by
  unfold demote_step
  rw [if_neg hne]
  split
  next obot heq => simp [upd_self]
  next hno =>
    intro h2
    obtain ⟨ob, hob⟩ := H2 h2
    exact hno ob hob

theorem demote_fold_clears (de : Bool) (l : String) (now : Nat)
    (L : List LoopCfg) (acc : DemAcc)
    (H : ∀ n, (acc.ls n).1 = 2 → (acc.ls n).2 ≠ none)
    (c : LoopCfg) (hc : c ∈ L) (hne : c.name ≠ l) :
    (((L.foldl (demote_step de l now) acc)).ls c.name).1 ≠ 2 := by
  obtain ⟨L1, L2, rfl⟩ := List.append_of_mem hc
  rw [List.foldl_append, List.foldl_cons]
  apply demote_fold_ls_ne2
  apply demote_step_clears de l now _ c hne
  intro h2
  rcases demote_fold_ls_shape de l now L1 acc c.name with hsh | ⟨ob2, hsh1, hsh2⟩
  · rw [hsh] at h2 ⊢
    have hob := H c.name h2
    rcases hq : acc.ls c.name with ⟨st, ob⟩
    rw [hq] at h2 hob
    simp only at h2 hob
    subst h2
    rcases ob with _ | b0
    · exact absurd rfl hob
    · exact ⟨b0, rfl⟩
  · rw [hsh2] at h2
    simp at h2

theorem inv_init (C : Controller) : Inv C (initState C) := by
  constructor
  · intro n _; rfl
  · intro n h; exact absurd rfl h
  · intro b n h; exact absurd h (by simp [initState])
  · intro n _; rfl
  · intro n1 n2 h1 _; exact absurd h1 (by simp [initState])

theorem write_inv (C : Controller) (de : Bool)
    (ls0 : String → Nat × Option String) (pool0 : String → BotData)
    (ls1 : String → Nat × Option String) (pool1 : String → BotData)
    (l ab : String) (eff t : Nat)
    (hInv : Inv C ⟨de, ls0, pool0⟩)
    (hA : ∀ n, ls1 n = ls0 n ∨ ∃ ob, ls0 n = (2, some ob) ∧ ls1 n = (1, some ob))
    (hB : ∀ b, b ≠ ab → (pool1 b).assigned = (pool0 b).assigned)
    (hC : (pool0 ab).assigned = some l ∨ (pool0 ab).assigned = none)
    (hD : (ls0 l).2 = some ab ∨ (ls0 l).2 = none)
    (hl : l ∈ cfgNames C)
    (heff : eff ≠ 0)
    (htalk : eff = 2 → ∀ n, n ≠ l → (ls1 n).1 ≠ 2) :
    Inv C ⟨de, upd ls1 l (eff, some ab),
           upd pool1 ab { pool1 ab with assigned := some l, last_used := t }⟩ := by
  -- a bot other than `ab` assigned in `pool0` is assigned to a loop other than `l`
  have fact1 : ∀ b n, b ≠ ab → (pool0 b).assigned = some n → n ≠ l := by
    intro b n hb hpb hnl
    subst hnl
    have h2 := (hInv.bot_loop b n hpb).2
    rcases hD with hD | hD
    · rw [hD] at h2
      injection h2 with h3
      exact hb h3.symm
    · rw [hD] at h2
      exact Option.noConfusion h2
  -- a bot assigned in `pool0` to a loop other than `l` is not `ab`
  have fact2 : ∀ b n, (pool0 b).assigned = some n → n ≠ l → b ≠ ab := by
    intro b n hpb hn hba
    subst hba
    rcases hC with hC | hC
    · rw [hC] at hpb
      injection hpb with h3
      exact hn h3.symm
    · rw [hC] at hpb
      exact Option.noConfusion hpb
  obtain ⟨hOff, hOn, hBL, hOut, hTU⟩ := hInv
  dsimp only at hOff hOn hBL hOut hTU
  refine ⟨?_, ?_, ?_, ?_, ?_⟩ <;> dsimp only
  · -- off_none
    intro n h
    by_cases hn : n = l
    · subst hn
      rw [upd_self] at h
      exact absurd h heff
    · rw [upd_ne _ _ _ hn] at h ⊢
      rcases hA n with hls | ⟨ob, h1, h2⟩
      · rw [hls] at h ⊢
        exact hOff n h
      · rw [h2] at h
        simp at h
  · -- on_bot
    intro n h
    by_cases hn : n = l
    · subst hn
      exact ⟨ab, by rw [upd_self], by rw [upd_self]⟩
    · rw [upd_ne _ _ _ hn] at h ⊢
      rcases hA n with hls | ⟨ob, h1, h2⟩
      · rw [hls] at h ⊢
        obtain ⟨b, hb1, hb2⟩ := hOn n h
        have hbab : b ≠ ab := fact2 b n hb2 hn
        refine ⟨b, hb1, ?_⟩
        rw [upd_ne _ _ _ hbab, hB b hbab]
        exact hb2
      · rw [h2]
        obtain ⟨b, hb1, hb2⟩ := hOn n (by rw [h1]; simp)
        rw [h1] at hb1
        have hob : b = ob := by injection hb1 with h3; exact h3.symm
        subst hob
        have hbab : b ≠ ab := fact2 b n hb2 hn
        refine ⟨b, rfl, ?_⟩
        rw [upd_ne _ _ _ hbab, hB b hbab]
        exact hb2
  · -- bot_loop
    intro b n h
    by_cases hb : b = ab
    · subst hb
      rw [upd_self] at h
      simp only at h
      have hn : n = l := by injection h with h3; exact h3.symm
      subst hn
      rw [upd_self]
      exact ⟨heff, rfl⟩
    · rw [upd_ne _ _ _ hb, hB b hb] at h
      have hn : n ≠ l := fact1 b n hb h
      obtain ⟨hs, hb1⟩ := hBL b n h
      rw [upd_ne _ _ _ hn]
      rcases hA n with hls | ⟨ob, h1, h2⟩
      · rw [hls]; exact ⟨hs, hb1⟩
      · rw [h1] at hb1
        have hob : ob = b := by simpa using hb1
        subst hob
        rw [h2]
        exact ⟨by simp, rfl⟩
  · -- outside_off
    intro n hn
    have hnl : n ≠ l := fun h => hn (h ▸ hl)
    rw [upd_ne _ _ _ hnl]
    rcases hA n with hls | ⟨ob, h1, h2⟩
    · rw [hls]; exact hOut n hn
    · have := hOut n hn
      rw [this] at h1
      exact absurd h1 (by simp)
  · -- talk_unique
    intro n1 n2 h1 h2
    by_cases e1 : n1 = l <;> by_cases e2 : n2 = l
    · rw [e1, e2]
    · rw [upd_ne _ _ _ e2] at h2
      rw [e1, upd_self] at h1
      simp only at h1
      exact absurd h2 (htalk h1 n2 e2)
    · rw [upd_ne _ _ _ e1] at h1
      rw [e2, upd_self] at h2
      simp only at h2
      exact absurd h1 (htalk h2 n1 e1)
    · rw [upd_ne _ _ _ e1] at h1
      rw [upd_ne _ _ _ e2] at h2
      rcases hA n1 with ha1 | ⟨ob1, hx1, hy1⟩
      · rcases hA n2 with ha2 | ⟨ob2, hx2, hy2⟩
        · rw [ha1] at h1; rw [ha2] at h2
          exact hTU n1 n2 h1 h2
        · rw [hy2] at h2; simp at h2
      · rw [hy1] at h1; simp at h1

theorem release_inv (C : Controller) (de : Bool)
    (ls : String → Nat × Option String) (pool : String → BotData)
    (l b : String) (t : Nat)
    (hInv : Inv C ⟨de, ls, pool⟩)
    (hb : (ls l).2 = some b)
    (hl : l ∈ cfgNames C) :
    Inv C ⟨de, upd ls l (0, none),
           upd pool b { pool b with assigned := none, last_used := t }⟩ := by
  obtain ⟨hOff, hOn, hBL, hOut, hTU⟩ := hInv
  dsimp only at hOff hOn hBL hOut hTU
  have hstate : (ls l).1 ≠ 0 := by
    intro h0
    rw [hOff l h0] at hb
    exact Option.noConfusion hb
  obtain ⟨b0, hb0, hpb⟩ := hOn l hstate
  have hbb : b0 = b := by rw [hb] at hb0; simpa using hb0.symm
  subst hbb
  refine ⟨?_, ?_, ?_, ?_, ?_⟩ <;> dsimp only
  · intro n h
    by_cases hn : n = l
    · subst hn; rw [upd_self]
    · rw [upd_ne _ _ _ hn] at h ⊢
      exact hOff n h
  · intro n h
    by_cases hn : n = l
    · subst hn; rw [upd_self] at h; exact absurd rfl h
    · rw [upd_ne _ _ _ hn] at h ⊢
      obtain ⟨b2, h1, h2⟩ := hOn n h
      have hb2 : b2 ≠ b0 := by
        intro he
        subst he
        rw [hpb] at h2
        exact hn (by injection h2 with h3; exact h3.symm)
      exact ⟨b2, h1, by rw [upd_ne _ _ _ hb2]; exact h2⟩
  · intro b2 n h
    by_cases hb2 : b2 = b0
    · subst hb2
      rw [upd_self] at h
      exact absurd h (by simp)
    · rw [upd_ne _ _ _ hb2] at h
      obtain ⟨hs, h1⟩ := hBL b2 n h
      have hn : n ≠ l := by
        intro he
        subst he
        rw [hb] at h1
        exact hb2 (by injection h1 with h3; exact h3.symm)
      rw [upd_ne _ _ _ hn]
      exact ⟨hs, h1⟩
  · intro n hn
    have hnl : n ≠ l := fun h => hn (h ▸ hl)
    rw [upd_ne _ _ _ hnl]
    exact hOut n hn
  · intro n1 n2 h1 h2
    by_cases e1 : n1 = l
    · subst e1; rw [upd_self] at h1; simp at h1
    by_cases e2 : n2 = l
    · subst e2; rw [upd_self] at h2; simp at h2
    rw [upd_ne _ _ _ e1] at h1
    rw [upd_ne _ _ _ e2] at h2
    exact hTU n1 n2 h1 h2

theorem off_write_inv (C : Controller) (de : Bool)
    (ls : String → Nat × Option String) (pool : String → BotData)
    (l : String)
    (hInv : Inv C ⟨de, ls, pool⟩)
    (hb : (ls l).2 = none)
    (hl : l ∈ cfgNames C) :
    Inv C ⟨de, upd ls l (0, none), pool⟩ := by
  obtain ⟨hOff, hOn, hBL, hOut, hTU⟩ := hInv
  dsimp only at hOff hOn hBL hOut hTU
  refine ⟨?_, ?_, ?_, ?_, ?_⟩ <;> dsimp only
  · intro n h
    by_cases hn : n = l
    · subst hn; rw [upd_self]
    · rw [upd_ne _ _ _ hn] at h ⊢
      exact hOff n h
  · intro n h
    by_cases hn : n = l
    · subst hn; rw [upd_self] at h; exact absurd rfl h
    · rw [upd_ne _ _ _ hn] at h ⊢
      exact hOn n h
  · intro b2 n h
    obtain ⟨hs, h1⟩ := hBL b2 n h
    have hn : n ≠ l := by
      intro he
      subst he
      rw [hb] at h1
      exact Option.noConfusion h1
    rw [upd_ne _ _ _ hn]
    exact ⟨hs, h1⟩
  · intro n hn
    have hnl : n ≠ l := fun h => hn (h ▸ hl)
    rw [upd_ne _ _ _ hnl]
    exact hOut n hn
  · intro n1 n2 h1 h2
    by_cases e1 : n1 = l
    · subst e1; rw [upd_self] at h1; simp at h1
    by_cases e2 : n2 = l
    · subst e2; rw [upd_self] at h2; simp at h2
    rw [upd_ne _ _ _ e1] at h1
    rw [upd_ne _ _ _ e2] at h2
    exact hTU n1 n2 h1 h2

theorem finish_inv (C : Controller) (de : Bool)
    (ls : String → Nat × Option String) (pool pool1 : String → BotData)
    (l ab : String) (oldst eff t : Nat)
    (hInv : Inv C ⟨de, ls, pool⟩)
    (hB : ∀ b, b ≠ ab → (pool1 b).assigned = (pool b).assigned)
    (hC : (pool ab).assigned = some l ∨ (pool ab).assigned = none)
    (hD : (ls l).2 = some ab ∨ (ls l).2 = none)
    (hl : l ∈ cfgNames C)
    (heff : eff ≠ 0) :
    Inv C (finish_assign C ⟨de, ls, pool⟩ pool1 ab l oldst eff t).1 := by
  unfold finish_assign
  by_cases h2 : eff = 2
  · rw [if_pos h2]
    dsimp only
    refine write_inv C de ls pool _ _ l ab eff t hInv ?_ ?_ hC hD hl heff ?_
    · intro n
      exact demote_fold_ls_shape de l t C.cfgs ⟨ls, pool1, []⟩ n
    · intro b hb
      rw [demote_fold_pool_assigned]
      exact hB b hb
    · intro _ n hn
      by_cases hmem : n ∈ cfgNames C
      · obtain ⟨c, hc, hcn⟩ := List.mem_map.mp hmem
        rw [← hcn]
        refine demote_fold_clears de l t C.cfgs ⟨ls, pool1, []⟩ ?_ c hc (by rwa [hcn])
        intro m hm
        obtain ⟨bm, hbm, _⟩ := hInv.on_bot m (by dsimp only at hm ⊢; omega)
        dsimp only at hbm ⊢
        rw [hbm]
        simp
      · have h0 := hInv.outside_off n hmem
        dsimp only at h0
        rcases demote_fold_ls_shape de l t C.cfgs ⟨ls, pool1, []⟩ n with hs | ⟨ob, hs1, hs2⟩
        · rw [hs]
          dsimp only
          rw [h0]
          simp
        · dsimp only at hs1
          rw [h0] at hs1
          exact absurd hs1 (by simp)
  · rw [if_neg h2]
    dsimp only
    refine write_inv C de ls pool ls pool1 l ab eff t hInv (fun n => Or.inl rfl) hB hC hD hl heff ?_
    intro h2c
    exact absurd h2c h2

theorem inv_update (C : Controller) (s : CtrlState) (l : String) (ns t : Nat)
    (hInv : Inv C s) : Inv C (update_bot_assignment C s l ns t).1 := by
  obtain ⟨de, ls, pool⟩ := s
  unfold update_bot_assignment
  cases hcfg : loop_config C l with
  | none => exact hInv
  | some cfg =>
    have hl : l ∈ cfgNames C := (loop_config_props hcfg).1
    dsimp only
    by_cases heff : clamp_state cfg ns = 0
    · rw [if_pos heff]
      cases hob : (ls l).2 with
      | some b =>
        dsimp only
        exact release_inv C de ls pool l b t hInv hob hl
      | none =>
        dsimp only
        exact off_write_inv C de ls pool l hInv hob hl
    · rw [if_neg heff]
      cases hob : (ls l).2 with
      | some ab =>
        dsimp only
        have hstate : (ls l).1 ≠ 0 := by
          intro h0
          have := hInv.off_none l
          dsimp only at this
          rw [this h0] at hob
          exact Option.noConfusion hob
        obtain ⟨b0, hb0, hpb⟩ := hInv.on_bot l hstate
        dsimp only at hb0 hpb
        have hbb : b0 = ab := by rw [hob] at hb0; simpa using hb0.symm
        subst hbb
        exact finish_inv C de ls pool pool l b0 _ _ t hInv (fun b hb => rfl)
          (Or.inl hpb) (Or.inl hob) hl heff
      | none =>
        cases hfind : find_idle_bot C pool with
        | none => exact hInv
        | some ab =>
          dsimp only
          exact finish_inv C de ls pool _ l ab _ _ t hInv
            (fun b hb => by rw [upd_ne _ _ _ hb])
            (Or.inr (find_idle_bot_idle hfind).2) (Or.inr hob) hl heff

theorem inv_applyOp (C : Controller) (s : CtrlState) (op : Op)
    (h : Inv C s) : Inv C (applyOp C s op) := by
  cases op with
  | click l t =>
    dsimp only [applyOp]
    unfold on_loop_clicked
    cases hcfg : loop_config C l with
    | none => exact h
    | some cfg =>
      dsimp only
      by_cases hcl : cfg.can_listen = false
      · rw [if_pos hcl]; exact h
      · rw [if_neg hcl]
        exact inv_update C s l _ t h
  | offClick l t => exact inv_update C s l 0 t h
  | setState l st t => exact inv_update C s l st t h
  | toggleDelay => exact ⟨h.off_none, h.on_bot, h.bot_loop, h.outside_off, h.talk_unique⟩

theorem inv_foldl (C : Controller) (ops : List Op) (s : CtrlState)
    (h : Inv C s) : Inv C (ops.foldl (applyOp C) s) := by
  induction ops generalizing s with
  | nil => exact h
  | cons op ops ih => exact ih _ (inv_applyOp C s op h)

theorem inv_reach (C : Controller) (ops : List Op) : Inv C (reach C ops) :=
  inv_foldl C ops _ (inv_init C)

theorem finish_assign_ls_self (C : Controller) (s : CtrlState) (pool1 : String → BotData)
    (ab l : String) (oldst eff t : Nat) :
    ((finish_assign C s pool1 ab l oldst eff t).1).loop_states l = (eff, some ab) := by
  unfold finish_assign
  by_cases h2 : eff = 2
  · rw [if_pos h2]
    dsimp only
    rw [upd_self]
  · rw [if_neg h2]
    dsimp only
    rw [upd_self]

theorem update_ls_oldbot (C : Controller) (s : CtrlState) (l : String) (cfg : LoopCfg)
    (ns t : Nat) (ab : String)
    (hcfg : loop_config C l = some cfg)
    (heff : clamp_state cfg ns ≠ 0)
    (hob : (s.loop_states l).2 = some ab) :
    (update_bot_assignment C s l ns t).1.loop_states l = (clamp_state cfg ns, some ab) := by
  unfold update_bot_assignment
  rw [hcfg]
  dsimp only
  rw [if_neg heff, hob]
  exact finish_assign_ls_self C s s.bot_pool ab l _ _ t

theorem update_ls_fresh (C : Controller) (s : CtrlState) (l : String) (cfg : LoopCfg)
    (ns t : Nat) (b : String)
    (hcfg : loop_config C l = some cfg)
    (heff : clamp_state cfg ns ≠ 0)
    (hob : (s.loop_states l).2 = none)
    (hfind : find_idle_bot C s.bot_pool = some b) :
    (update_bot_assignment C s l ns t).1.loop_states l = (clamp_state cfg ns, some b) := by
  unfold update_bot_assignment
  rw [hcfg]
  dsimp only
  rw [if_neg heff, hob, hfind]
  exact finish_assign_ls_self C s _ b l _ _ t

theorem update_off_sets (C : Controller) (s : CtrlState) (l : String) (cfg : LoopCfg)
    (ns t : Nat)
    (hcfg : loop_config C l = some cfg)
    (heff : clamp_state cfg ns = 0) :
    (update_bot_assignment C s l ns t).1.loop_states l = (0, none) ∧
    (∀ b, (s.loop_states l).2 = some b →
      ((update_bot_assignment C s l ns t).1.bot_pool b).assigned = none) := by
  unfold update_bot_assignment
  rw [hcfg]
  dsimp only
  rw [if_pos heff]
  cases hob : (s.loop_states l).2 with
  | some b0 =>
    dsimp only
    refine ⟨upd_self _ _ _, ?_⟩
    intro b hb
    have hb0 : b = b0 := by simpa using hb.symm
    subst hb0
    rw [upd_self]
  | none =>
    dsimp only
    refine ⟨upd_self _ _ _, ?_⟩
    intro b hb
    exact absurd hb (by simp)

theorem on_loop_clicked_eq (C : Controller) (s : CtrlState) (l : String) (cfg : LoopCfg)
    (t : Nat) (hcfg : loop_config C l = some cfg) (hcl : cfg.can_listen = true) :
    on_loop_clicked C s l t = update_bot_assignment C s l
      (if (s.loop_states l).1 = 0 then 1
       else if (s.loop_states l).1 = 1 then (if cfg.can_talk = true then 2 else 1) else 1) t := by
  unfold on_loop_clicked
  rw [hcfg]
  dsimp only
  rw [if_neg (by simp [hcl])]

theorem drain_queue_nil {α : Type} (l : List α) : drain_queue l = [] := by
  induction l with
  | nil => rfl
  | cons x rest ih => simpa [drain_queue] using ih

theorem truncQ_bounds (x : ℚ) (h1 : ((-32768 : Int) : ℚ) ≤ x) (h2 : x ≤ ((32767 : Int) : ℚ)) :
    (-32768 : Int) ≤ truncQ x ∧ truncQ x ≤ (32767 : Int) := by
  unfold truncQ
  split
  next h0 =>
    constructor
    · exact Int.le_floor.mpr h1
    · have hf : (↑⌊x⌋ : ℚ) ≤ ((32767 : Int) : ℚ) := le_trans (Int.floor_le x) h2
      exact_mod_cast hf
  next h0 =>
    constructor
    · have hc : ((-32768 : Int) : ℚ) ≤ (↑⌈x⌉ : ℚ) := le_trans h1 (Int.le_ceil x)
      exact_mod_cast hc
    · exact Int.ceil_le.mpr h2

/-- C1: Exclusive-TALK invariant — for every sequence of controller
operations starting from the initial all-OFF state, at most one loop has
state TALK (state 2) at any instant: any two loops found in state 2 in a
reachable state are the same loop.  The demotion pass inside
`_update_bot_assignment` is what maintains this. -/
theorem exclusive_talk_invariant (C : Controller) (ops : List Op)
    (n1 n2 : String)
    (h1 : ((reach C ops).loop_states n1).1 = 2)
    (h2 : ((reach C ops).loop_states n2).1 = 2) :
    n1 = n2 :=
  (inv_reach C ops).talk_unique n1 n2 h1 h2

theorem exclusive_talk_invariant_witness :
    ((reach demoC [Op.click "A" 1, Op.click "A" 2]).loop_states "A").1 = 2 ∧ "A" = "A" :=
  ⟨by decide,
   exclusive_talk_invariant demoC [Op.click "A" 1, Op.click "A" 2] "A" "A"
     (by decide) (by decide)⟩

/-- C2: Assignment partial bijection — in every reachable controller
state: (1) no bot is recorded by two distinct non-OFF loops; (2) a bot's
`assigned` field holds loop `n` exactly when loop `n` is non-OFF and
records that bot (with (1), that loop is unique); (3) every non-OFF loop
records a bot. -/
theorem assignment_partial_bijection (C : Controller) (ops : List Op) :
    (∀ n1 n2 b, ((reach C ops).loop_states n1).1 ≠ 0 →
      ((reach C ops).loop_states n2).1 ≠ 0 →
      ((reach C ops).loop_states n1).2 = some b →
      ((reach C ops).loop_states n2).2 = some b → n1 = n2) ∧
    (∀ b n, ((reach C ops).bot_pool b).assigned = some n ↔
      (((reach C ops).loop_states n).1 ≠ 0 ∧ ((reach C ops).loop_states n).2 = some b)) ∧
    (∀ n, ((reach C ops).loop_states n).1 ≠ 0 →
      ∃ b, ((reach C ops).loop_states n).2 = some b) := by
  obtain ⟨hOff, hOn, hBL, hOut, hTU⟩ := inv_reach C ops
  refine ⟨?_, ?_, ?_⟩
  · intro n1 n2 b h1 h2 hb1 hb2
    obtain ⟨c1, hc1, hp1⟩ := hOn n1 h1
    obtain ⟨c2, hc2, hp2⟩ := hOn n2 h2
    rw [hb1] at hc1
    rw [hb2] at hc2
    have e1 : c1 = b := by simpa using hc1.symm
    have e2 : c2 = b := by simpa using hc2.symm
    subst e1
    subst e2
    rw [hp1] at hp2
    simpa using hp2
  · intro b n
    constructor
    · exact fun h => hBL b n h
    · rintro ⟨h1, h2⟩
      obtain ⟨c, hc, hp⟩ := hOn n h1
      rw [h2] at hc
      have : c = b := by simpa using hc.symm
      subst this
      exact hp
  · intro n h
    obtain ⟨b, hb, _⟩ := hOn n h
    exact ⟨b, hb⟩

theorem assignment_partial_bijection_witness :
    ((reach demoC [Op.click "A" 1]).bot_pool "BOT1").assigned = some "A" :=
  ((assignment_partial_bijection demoC [Op.click "A" 1]).2.1 "BOT1" "A").mpr
    ⟨by decide, by decide⟩

/-- C3 counterexample: on loop `C` (`can_listen = true`,
`can_talk = false`) starting from the all-OFF initial state, the first
click yields LISTEN, but the second click leaves the loop in LISTEN
(state 1), not OFF as the claim asserts: `on_loop_clicked` computes
`new_state = 2 if cfg["can_talk"] else 1`, so a second click on a
listen-only loop requests LISTEN again and the clamp-to-OFF path of
`_update_bot_assignment` is never exercised. -/
theorem scenario2_counterexample :
    ((reach demoC [Op.click "C" 1, Op.click "C" 2]).loop_states "C").1 = 1 ∧
    ¬ ((reach demoC [Op.click "C" 1, Op.click "C" 2]).loop_states "C").1 = 0 := by
  constructor
  · decide
  · decide

/-- C3 amended: for a loop with `canListen = true` and `canTalk = false`
starting in OFF (with an idle bot available), one click transitions it to
LISTEN, and a second click leaves it in LISTEN — the click handler
requests LISTEN again for a listen-only loop (`2 if cfg["can_talk"] else
1`), so the loop's state stays `(1, bot)`; only a direct TALK request to
`_update_bot_assignment` would be clamped to OFF. -/
theorem scenario2_second_click_stays_listen (C : Controller) (s : CtrlState)
    (l : String) (cfg : LoopCfg) (t1 t2 : Nat) (b : String)
    (hcfg : loop_config C l = some cfg)
    (hcl : cfg.can_listen = true) (hct : cfg.can_talk = false)
    (h0 : s.loop_states l = (0, none))
    (hfind : find_idle_bot C s.bot_pool = some b) :
    (on_loop_clicked C s l t1).1.loop_states l = (1, some b) ∧
    (on_loop_clicked C (on_loop_clicked C s l t1).1 l t2).1.loop_states l = (1, some b) := by
  have hclamp1 : clamp_state cfg 1 = 1 := by simp [clamp_state]
  have hfst : (on_loop_clicked C s l t1).1.loop_states l = (1, some b) := by
    rw [on_loop_clicked_eq C s l cfg t1 hcfg hcl]
    rw [if_pos (by rw [h0])]
    have := update_ls_fresh C s l cfg 1 t1 b hcfg (by rw [hclamp1]; exact one_ne_zero)
      (by rw [h0]) hfind
    rwa [hclamp1] at this
  refine ⟨hfst, ?_⟩
  rw [on_loop_clicked_eq C _ l cfg t2 hcfg hcl]
  rw [hfst]
  rw [if_neg (by norm_num), if_pos rfl, if_neg (by rw [hct]; exact Bool.false_ne_true)]
  have := update_ls_oldbot C _ l cfg 1 t2 b hcfg (by rw [hclamp1]; exact one_ne_zero)
    (by rw [hfst])
  rwa [hclamp1] at this

theorem scenario2_second_click_stays_listen_witness :
    (on_loop_clicked demoC (initState demoC) "C" 1).1.loop_states "C" = (1, some "BOT1") ∧
    (on_loop_clicked demoC (on_loop_clicked demoC (initState demoC) "C" 1).1 "C" 2).1.loop_states "C"
      = (1, some "BOT1") :=
  scenario2_second_click_stays_listen demoC (initState demoC) "C" ⟨"C", true, false⟩ 1 2 "BOT1"
    (by decide) rfl rfl rfl (by decide)

/-- C4 counterexample: for a loop with `can_listen = false` and
`can_talk = false` (which also "cannot talk"), a direct
`_update_bot_assignment(loop, 2)` request is NOT clamped — the guard is
`can_listen and not can_talk` — so the loop ends in state 2 with a bot, not
OFF. -/
theorem clamp_policy_counterexample :
    ((reach noCapC [Op.setState "X" 2 5]).loop_states "X").1 = 2 ∧
    ¬ ((reach noCapC [Op.setState "X" 2 5]).loop_states "X").1 = 0 := by
  constructor
  · decide
  · decide

/-- C4 amended: for every loop that can listen but cannot talk
(`can_listen = true`, `can_talk = false`), a state-change request with
desired state TALK (`new_state = 2` passed to `_update_bot_assignment`)
results in the loop being set to OFF — `(0, none)` — with its bot (if any)
released, never LISTEN. -/
theorem clamp_to_off_listen_only (C : Controller) (s : CtrlState)
    (l : String) (cfg : LoopCfg) (t : Nat)
    (hcfg : loop_config C l = some cfg)
    (hcl : cfg.can_listen = true) (hct : cfg.can_talk = false) :
    (update_bot_assignment C s l 2 t).1.loop_states l = (0, none) ∧
    (∀ b, (s.loop_states l).2 = some b →
      ((update_bot_assignment C s l 2 t).1.bot_pool b).assigned = none) :=
  update_off_sets C s l cfg 2 t hcfg (by simp [clamp_state, hcl, hct])

theorem clamp_to_off_listen_only_witness :
    (update_bot_assignment demoC (reach demoC [Op.click "C" 1]) "C" 2 9).1.loop_states "C"
      = (0, none) ∧
    ((update_bot_assignment demoC (reach demoC [Op.click "C" 1]) "C" 2 9).1.bot_pool "BOT1").assigned
      = none := by
  have h := clamp_to_off_listen_only demoC (reach demoC [Op.click "C" 1]) "C"
    ⟨"C", true, false⟩ 9 (by decide) rfl rfl
  exact ⟨h.1, h.2 "BOT1" (by decide)⟩

/-- C5: LRU bot selection — when a loop with no bot transitions to a
non-OFF state (the clamped request is nonzero) and an idle bot exists,
`_update_bot_assignment` records the bot returned by `_find_idle_bot`,
which is idle and has the smallest `last_used` among all idle bots; in
particular for two idle bots with `last_used` t1 < t2 the t1 bot is
chosen. -/
theorem lru_bot_selection (C : Controller) (s : CtrlState) (l : String) (cfg : LoopCfg)
    (ns t : Nat) (b : String)
    (hcfg : loop_config C l = some cfg)
    (heff : clamp_state cfg ns ≠ 0)
    (hob : (s.loop_states l).2 = none)
    (hfind : find_idle_bot C s.bot_pool = some b) :
    (update_bot_assignment C s l ns t).1.loop_states l = (clamp_state cfg ns, some b) ∧
    b ∈ C.botNames ∧ (s.bot_pool b).assigned = none ∧
    ∀ b2 ∈ C.botNames, (s.bot_pool b2).assigned = none →
      (s.bot_pool b).last_used ≤ (s.bot_pool b2).last_used :=
  ⟨update_ls_fresh C s l cfg ns t b hcfg heff hob hfind,
   (find_idle_bot_idle hfind).1, (find_idle_bot_idle hfind).2,
   fun b2 hb2 hidle => find_idle_bot_min hfind b2 hb2 hidle⟩

theorem lru_bot_selection_witness :
    (update_bot_assignment demoC lruS "A" 1 10).1.loop_states "A"
      = (clamp_state ⟨"A", true, true⟩ 1, some "BOT2") ∧
    (lruS.bot_pool "BOT2").last_used ≤ (lruS.bot_pool "BOT1").last_used := by
  have h := lru_bot_selection demoC lruS "A" ⟨"A", true, true⟩ 1 10 "BOT2"
    (by decide) (by decide) rfl (by decide)
  exact ⟨h.1, h.2.2.2 "BOT1" (by decide) rfl⟩

/-- C6: Pool exhaustion is a silent no-op — if every bot in the roster is
assigned and a non-OFF state is requested for an OFF loop with no bot,
`_update_bot_assignment` returns the state completely unchanged and issues
no bot command at all. -/
theorem pool_exhaustion_noop (C : Controller) (s : CtrlState) (l : String) (cfg : LoopCfg)
    (ns t : Nat)
    (hcfg : loop_config C l = some cfg)
    (h0 : s.loop_states l = (0, none))
    (hns : ns ≠ 0)
    (hbusy : ∀ b ∈ C.botNames, (s.bot_pool b).assigned ≠ none) :
    update_bot_assignment C s l ns t = (s, []) := by
  obtain ⟨de, ls, pool⟩ := s
  unfold update_bot_assignment
  rw [hcfg]
  dsimp only
  dsimp only at h0 hbusy
  by_cases heff : clamp_state cfg ns = 0
  · rw [if_pos heff]
    rw [show (ls l).2 = none from by rw [h0]]
    dsimp only
    have hupd : upd ls l (0, none) = ls := by
      funext x
      by_cases hx : x = l
      · subst hx; rw [upd_self, h0]
      · rw [upd_ne _ _ _ hx]
    rw [hupd]
  · rw [if_neg heff]
    rw [show (ls l).2 = none from by rw [h0]]
    dsimp only
    rw [find_idle_bot_busy hbusy]

theorem pool_exhaustion_noop_witness :
    update_bot_assignment demoC busyS "B" 1 7 = (busyS, []) :=
  pool_exhaustion_noop demoC busyS "B" ⟨"B", true, true⟩ 1 7
    (by decide) rfl one_ne_zero (by decide)

/-- C7: Late-binding mute — a frame dequeued by the delay worker while
delay mode is on is played only if `streaming` is true at the moment
playback would occur (after the residual wait, i.e. at time
`max tNow (tstamp + delay_seconds)`), not at capture time; in particular a
frame captured while `streaming` was true is never played when `streaming`
has been set false (mute) before the delay elapses. -/
theorem late_binding_mute (env : BotEnv) (tNow tstamp : Nat) (pcm : List Int) :
    (∀ out, delay_worker_step env tNow tstamp pcm = some out →
      env.streaming (max tNow (tstamp + env.delay_seconds tNow)) = true) ∧
    (env.streaming (max tNow (tstamp + env.delay_seconds tNow)) = false →
      delay_worker_step env tNow tstamp pcm = none) := by
  constructor
  · intro out h
    unfold delay_worker_step at h
    split at h
    · exact absurd h (by simp)
    · dsimp only at h
      split at h
      next hs => exact hs.1
      next => exact absurd h (by simp)
  · intro hs
    unfold delay_worker_step
    split
    · rfl
    · dsimp only
      rw [if_neg]
      rintro ⟨h1, _⟩
      rw [hs] at h1
      exact Bool.false_ne_true h1

theorem late_binding_mute_witness :
    muteEnv.streaming 0 = true ∧ muteEnv.streaming 3 = false ∧
    delay_worker_step muteEnv 0 0 [7] = none :=
  ⟨by decide, by decide, (late_binding_mute muteEnv 0 0 [7]).2 (by decide)⟩

/-- C8: Disabling delay discards in-flight audio — `disable_audio_delay`
leaves the queue drained (empty) with the flag off, so no already-queued
frame can ever be played, and any frame the relay worker dequeues while
the delay flag is off is dropped silently (`none`): no playback, no
real-time fallback. -/
theorem disable_delay_discards (s : DelayState) (env : BotEnv)
    (tNow tstamp : Nat) (pcm : List Int) :
    (disable_audio_delay s).audio_delay_queue = [] ∧
    (disable_audio_delay s).audio_delay_enabled = false ∧
    (env.delay_enabled tNow = false → delay_worker_step env tNow tstamp pcm = none) := by
  refine ⟨drain_queue_nil s.audio_delay_queue, rfl, ?_⟩
  intro h
  unfold delay_worker_step
  rw [if_pos h]

theorem disable_delay_discards_witness :
    (disable_audio_delay delayedS).audio_delay_queue = [] ∧
    delay_worker_step offEnv 5 0 [9] = none :=
  ⟨(disable_delay_discards delayedS offEnv 5 0 [9]).1,
   (disable_delay_discards delayedS offEnv 5 0 [9]).2.2 (by decide)⟩

/-- C9: Volume law — for every received 16-bit PCM sample `s` and every
volume `v ∈ [0, 1]`, the sample written to the output device equals
`clamp(s * v, INT16_MIN, INT16_MAX)` converted back to a 16-bit signed
integer; moreover for in-range `s` the clamp never actually binds and the
result stays inside the int16 range (so the `astype(np.int16)` conversion
is exact, with no wraparound). -/
theorem volume_law (vol : ℚ) (s : Int)
    (hs1 : int16Min ≤ s) (hs2 : s ≤ int16Max)
    (hv0 : 0 ≤ vol) (hv1 : vol ≤ 1) :
    playback_sample vol s = volume_law_spec vol s ∧
    playback_sample vol s = truncQ ((s : ℚ) * vol) ∧
    int16Min ≤ playback_sample vol s ∧ playback_sample vol s ≤ int16Max := by
  have hs1q : (-32768 : ℚ) ≤ (s : ℚ) := by
    have := hs1
    rw [int16Min] at this
    exact_mod_cast this
  have hs2q : (s : ℚ) ≤ 32767 := by
    have := hs2
    rw [int16Max] at this
    exact_mod_cast this
  have hlo : (-32768 : ℚ) ≤ (s : ℚ) * vol := by
    nlinarith [mul_nonneg (show (0 : ℚ) ≤ (s : ℚ) + 32768 by linarith) hv0]
  have hhi : (s : ℚ) * vol ≤ 32767 := by
    nlinarith [mul_nonneg (show (0 : ℚ) ≤ 32767 - (s : ℚ) by linarith) hv0]
  have hclamp : max (-32768 : ℚ) (min 32767 ((s : ℚ) * vol)) = (s : ℚ) * vol := by
    rw [min_eq_right hhi, max_eq_right hlo]
  have heqspec : playback_sample vol s = volume_law_spec vol s := by
    unfold playback_sample volume_law_spec int16Min int16Max
    norm_num
  have heqmul : playback_sample vol s = truncQ ((s : ℚ) * vol) := by
    unfold playback_sample
    rw [hclamp]
  have hb := truncQ_bounds ((s : ℚ) * vol) (by push_cast; exact hlo) (by push_cast; exact hhi)
  refine ⟨heqspec, heqmul, ?_, ?_⟩
  · rw [heqmul, int16Min]; exact hb.1
  · rw [heqmul, int16Max]; exact hb.2

theorem volume_law_witness :
    playback_sample (1/2 : ℚ) 101 = truncQ ((101 : ℚ) * (1/2 : ℚ)) ∧
    int16Min ≤ playback_sample (1/2 : ℚ) 101 := by
  have h := volume_law (1/2 : ℚ) 101 (by norm_num [int16Min]) (by norm_num [int16Max])
    (by norm_num) (by norm_num)
  exact ⟨h.2.1, h.2.2.1⟩

/-- C10: `set_volume` clamps its argument into `[0, 1]` (values below 0
become 0, values above 1 become 1), so starting from the initial value 1.0
the bot's `playback_volume` stays in `[0, 1]` after every sequence of
`set_volume` requests, including out-of-range ones. -/
theorem set_volume_clamps (vols : List ℚ) :
    (0 ≤ volume_after_sets vols ∧ volume_after_sets vols ≤ 1) ∧
    (∀ v : ℚ, v < 0 → set_volume v = 0) ∧
    (∀ v : ℚ, 1 < v → set_volume v = 1) := by
  have hmem : ∀ v : ℚ, 0 ≤ set_volume v ∧ set_volume v ≤ 1 := by
    intro v
    constructor
    · exact le_max_left 0 (min 1 v)
    · exact max_le (by norm_num) (min_le_left 1 v)
  refine ⟨?_, ?_, ?_⟩
  · have haux : ∀ (L : List ℚ) (a : ℚ), 0 ≤ a → a ≤ 1 →
        0 ≤ L.foldl (fun _ v => set_volume v) a ∧ L.foldl (fun _ v => set_volume v) a ≤ 1 := by
      intro L
      induction L with
      | nil => intro a h0 h1; exact ⟨h0, h1⟩
      | cons v rest ih =>
        intro a _ _
        rw [List.foldl_cons]
        exact ih (set_volume v) (hmem v).1 (hmem v).2
    exact haux vols initial_volume (by norm_num [initial_volume]) (by norm_num [initial_volume])
  · intro v hv
    unfold set_volume
    rw [min_eq_right (le_trans (le_of_lt hv) (by norm_num)), max_eq_left (le_of_lt hv)]
  · intro v hv
    unfold set_volume
    rw [min_eq_left (le_of_lt hv)]
    norm_num

theorem set_volume_clamps_witness :
    set_volume (-2 : ℚ) = 0 ∧ set_volume (2 : ℚ) = 1 ∧
    0 ≤ volume_after_sets [(5 : ℚ), (-2 : ℚ)] :=
  ⟨(set_volume_clamps []).2.1 (-2) (by norm_num),
   (set_volume_clamps []).2.2 2 (by norm_num),
   (set_volume_clamps [(5 : ℚ), (-2 : ℚ)]).1.1⟩

end MCC
